import Mathlib

set_option maxHeartbeats 1000000

namespace ExamPipeline

/-- ASCII alphanumeric-or-underscore characters: the portion of the regex
class `\w` (from `safe_name`, line 17) relevant to the inputs this model
reasons about.  Python's `\w` is Unicode-aware; the CJK ideographic range
appears separately in the class and is modelled separately in `keepChar`. -/
def isWordChar (c : Char) : Bool :=
  (0x30 ≤ c.toNat && c.toNat ≤ 0x39) || (0x41 ≤ c.toNat && c.toNat ≤ 0x5a) ||
    (0x61 ≤ c.toNat && c.toNat ≤ 0x7a) || c = '_'

/-- Characters kept by `safe_name`'s class `[\w一-鿿-]`: word
characters, the CJK ideographic range U+4E00 to U+9FFF, and hyphen. -/
def keepChar (c : Char) : Bool :=
  isWordChar c || (0x4e00 ≤ c.toNat && c.toNat ≤ 0x9fff) || c = '-'

/-- One pass of `re.sub(r"[^\w一-鿿-]+", "_", name)` (line 17):
each maximal run of characters outside the class becomes a single `'_'`.
The Boolean flag records whether the scan is inside such a run. -/
def subAux : Bool → List Char → List Char
  | _, [] => []
  | inRun, c :: rest =>
    if keepChar c then c :: subAux false rest
    else if inRun then subAux true rest
    else '_' :: subAux true rest

def subNonKeep (l : List Char) : List Char := subAux false l

def isUnd (c : Char) : Bool := c = '_'

/-- `.strip("_")` (line 17): drop leading and trailing underscores. -/
def stripUnd (l : List Char) : List Char :=
  ((l.dropWhile isUnd).reverse.dropWhile isUnd).reverse

/-- `safe_name(name)` (lines 16-17):
`re.sub(r"[^\w一-鿿-]+", "_", name).strip("_")[:80]` -- note the
truncation to 80 characters happens after the strip. -/
def safe_name (s : String) : String :=
  String.mk ((stripUnd (subNonKeep s.data)).take 80)

/-- Code-point lexicographic comparison of character lists: the order
Python uses when the ledger sort key compares `school` strings. -/
def clLt : List Char → List Char → Bool
  | [], [] => false
  | [], _ :: _ => true
  | _ :: _, [] => false
  | a :: as, b :: bs =>
    if a.toNat < b.toNat then true
    else if b.toNat < a.toNat then false
    else clLt as bs

/-- A catalog row: `year, school, subject, download_url`.  The CSV `year`
is parsed with `int(...)` wherever the source consumes it, so the model
carries it as an integer. -/
structure Row where
  year : Int
  school : String
  subject : String
  download_url : String
deriving DecidableEq, Repr

/-- A ledger row of `usable_{out}.csv`: a catalog row extended with
`text_file`, `method` and `text_len` (serialized as `str(len(text))`,
so equal numbers give byte-identical cells). -/
structure Rec where
  year : Int
  school : String
  subject : String
  download_url : String
  text_file : String
  method : String
  text_len : Nat
deriving DecidableEq, Repr

/-- Deterministic model of the pipeline's externals: the network
(`urlretrieve`, `none` = transport failure), the extraction library
(`none` = exception or `None` result), the presence of the `pdftoppm`
and `tesseract` binaries, the rasterizer's page output (`none` = nonzero
exit), and the recognition engine's stdout per page image.  Fixed
functions model an unchanged environment across runs. -/
structure Env where
  network : String → Option String
  pdfminer : String → Option String
  pdftoppm : Bool
  tesseract : Bool
  raster : String → Option (List String)
  recognize : String → String

/-- On-disk state the pipeline reads and writes: contents of the PDF and
text directories, by path.  `none` covers both a missing file and an
unreadable one (the cache probe treats the two alike, lines 84-96). -/
structure FS where
  pdfs : String → Option String
  txts : String → Option String

def setF (f : String → Option String) (p v : String) : String → Option String :=
  fun q => if q = p then some v else f q

/-- The `process_csv` parameters.  `out` is the output prefix; `limit`,
`offset`, `min_len`, `use_ocr` are the remaining CLI-derived knobs. -/
structure Config where
  out : String
  limit : Option Nat
  offset : Nat
  min_len : Nat
  use_ocr : Bool

/-- `extract_text_pdf` (lines 27-31): best-effort extraction; a library
exception or a `None` result is normalized to the empty string. -/
def extract_text_pdf (env : Env) (content : String) : String :=
  match env.pdfminer content with
  | none => ""
  | some t => t

inductive OcrErr where
  | toolUnavailable
  | rasterFailed
deriving DecidableEq, Repr

/-- `ocr_pdf` (lines 34-57): raises `RuntimeError` when `pdftoppm` or
`tesseract` is missing (the `ToolUnavailable` case, not caught inside
this function), or propagates the rasterizer's nonzero exit; otherwise
joins the per-page recognition stdout with blank lines and strips it. -/
def ocr_pdf (env : Env) (content : String) : Except OcrErr String :=
  if !env.pdftoppm || !env.tesseract then .error .toolUnavailable
  else
    match env.raster content with
    | none => .error .rasterFailed
    | some pages =>
      .ok ((String.intercalate "\n\n" (pages.map env.recognize)).trim)

/-- Writing one file: the PDF directory half and the text directory half. -/
def writePdf (fs : FS) (p d : String) : FS := { fs with pdfs := setF fs.pdfs p d }

def writeTxt (fs : FS) (p t : String) : FS := { fs with txts := setF fs.txts p t }

/-- `download_pdf` (lines 20-24): skip when the destination exists with
nonzero size; otherwise retrieve, `none` signalling a retrieval failure
(caught by the caller, which skips the entry, lines 98-101). -/
def download_pdf (env : Env) (fs : FS) (url dest : String) : Option FS :=
  if 0 < ((fs.pdfs dest).getD "").length then some fs
  else
    match env.network url with
    | none => none
    | some data => some (writePdf fs dest data)

/-- The filename stem `{year}_{sanitized school}` shared by an entry's
PDF and text artifact (lines 79-81). -/
def stem (r : Row) : String := toString r.year ++ "_" ++ safe_name r.school

def pdfPath (out : String) (r : Row) : String :=
  "exams/pdfs_" ++ out ++ "/" ++ stem r ++ ".pdf"

def txtPath (out : String) (r : Row) : String :=
  "exams/texts_" ++ out ++ "/" ++ stem r ++ ".txt"

/-- Lines 103-109: fast extraction, then -- when the result is short and
OCR is enabled -- the recognition fallback.  An exception from the
fallback is caught and normalized to empty text; `method` keeps its
prior value `"pdf"` in that case and becomes `"ocr"` only on success. -/
def computeText (env : Env) (cfg : Config) (content : String) : String × String :=
  let text := extract_text_pdf env content
  if text.length < cfg.min_len && cfg.use_ocr then
    match ocr_pdf env content with
    | .ok t => (t, "ocr")
    | .error _ => ("", "pdf")
  else (text, "pdf")

def mkRec (r : Row) (tf m : String) (n : Nat) : Rec :=
  ⟨r.year, r.school, r.subject, r.download_url, tf, m, n⟩

/-- Lines 84-96: the cache probe.  An existing, readable text artifact of
length at least `min_len` short-circuits the entry as `method="cached"`;
a short, missing or unreadable artifact falls through. -/
def cacheProbe (cfg : Config) (fs : FS) (r : Row) : Option Rec :=
  match fs.txts (txtPath cfg.out r) with
  | some cached =>
    if cfg.min_len ≤ cached.length then
      some (mkRec r (txtPath cfg.out r) "cached" cached.length)
    else none
  | none => none

/-- Lines 98-118 after a cache miss: download (skip the entry on
failure), extract with optional fallback, and accept the entry iff the
final text reaches `min_len`, writing the text artifact on accept. -/
def entryFetch (env : Env) (cfg : Config) (fs : FS) (r : Row) : FS × Option Rec :=
  match download_pdf env fs r.download_url (pdfPath cfg.out r) with
  | none => (fs, none)
  | some fs1 =>
    let content := (fs1.pdfs (pdfPath cfg.out r)).getD ""
    let tm := computeText env cfg content
    if cfg.min_len ≤ tm.1.length then
      (writeTxt fs1 (txtPath cfg.out r) tm.1,
       some (mkRec r (txtPath cfg.out r) tm.2 tm.1.length))
    else (fs1, none)

/-- One iteration of the per-entry loop (lines 75-118). -/
def entryStep (env : Env) (cfg : Config) (fs : FS) (r : Row) : FS × Option Rec :=
  match cacheProbe cfg fs r with
  | some u => (fs, some u)
  | none => entryFetch env cfg fs r

/-- The whole per-entry loop: thread the filesystem through the entries,
collecting accepted records in processing order. -/
def runEntries (env : Env) (cfg : Config) : FS → List Row → FS × List Rec
  | fs, [] => (fs, [])
  | fs, r :: rest =>
    let p := entryStep env cfg fs r
    let q := runEntries env cfg p.1 rest
    (q.1, match p.2 with
          | some u => u :: q.2
          | none => q.2)

/-- Stable insertion: place `a` before the first element `b` whose key is
no bigger (`le a b`). -/
def insertB {α : Type} (le : α → α → Bool) (a : α) : List α → List α
  | [] => [a]
  | b :: l => if le a b then a :: b :: l else b :: insertB le a l

/-- Stable insertion sort.  Python's `list.sort` is stable, and for a
total preorder on keys a stable sort is extensionally unique, so this
models `sort(key=..., reverse=True)` exactly (with `le a b` reading
"`a`'s key is at least `b`'s key"). -/
def isortB {α : Type} (le : α → α → Bool) : List α → List α
  | [] => []
  | a :: l => insertB le a (isortB le l)

/-- `year`-descending key of the catalog sort (line 65; Python's sort is
stable, and `reverse=True` keeps equal keys in file order). -/
def yearGE (a b : Row) : Bool := decide (b.year ≤ a.year)

def sortYearDesc (rows : List Row) : List Row := isortB yearGE rows

/-- Line 66, `rows[offset : (offset + limit) if limit else None]`: a falsy
`limit` -- absent, or zero -- selects everything from `offset` on. -/
def selectRows (cfg : Config) (rows : List Row) : List Row :=
  let s := sortYearDesc rows
  match cfg.limit with
  | none => s.drop cfg.offset
  | some l => if l = 0 then s.drop cfg.offset else (s.drop cfg.offset).take l

/-- Python-dict insertion keyed by `download_url` (lines 124-128):
overwrite in place when the key is present, append otherwise. -/
def hasUrl (m : List Rec) (u : String) : Bool := m.any fun r => r.download_url = u

def dictInsert (m : List Rec) (u : Rec) : List Rec :=
  if hasUrl m u.download_url then
    m.map fun r => if r.download_url = u.download_url then u else r
  else m ++ [u]

/-- Loading the persisted ledger into the `existing` dict (lines 121-125). -/
def dictOf (l : List Rec) : List Rec := l.foldl dictInsert []

/-- The `download_url` column of a ledger fragment. -/
def urlsOf (l : List Rec) : List String := l.map fun r => r.download_url

def lwStep (s : String) (acc : Option Rec) (u : Rec) : Option Rec :=
  if u.download_url = s then some u else acc

/-- The last record in `us` carrying `download_url = s` (the value a
Python dict holds for key `s` after inserting all of `us`). -/
def lastWrite (us : List Rec) (s : String) : Option Rec :=
  us.foldl (lwStep s) none

/-- `(int(r["year"]), r["school"])` descending: the ledger sort key
(line 131).  `keyGE a b` says `a`'s key is at least `b`'s key. -/
def keyGE (a b : Rec) : Bool :=
  decide (b.year < a.year) ||
    (decide (a.year = b.year) && !clLt a.school.data b.school.data)

def sortRecs (l : List Rec) : List Rec := isortB keyGE l

/-- Lines 120-131: merge the run's records over the existing ledger
dict-style (last write wins per `download_url`), then re-sort. -/
def mergeLedger (existing usable : List Rec) : List Rec :=
  sortRecs (List.foldl dictInsert (dictOf existing) usable)

/-- `process_csv` (lines 60-139) over the shallow state: sort and window
the catalog, run the per-entry loop, and rewrite the ledger with the
merge result.  The returned list is the full contents of
`usable_{out}.csv` after the run, in file order (the CSV writer is a
deterministic injective serializer of this list, so two runs persist
byte-identical ledgers iff these lists are equal). -/
def process_csv (env : Env) (cfg : Config) (catalog : List Row) (fs : FS)
    (ledger : List Rec) : FS × List Rec :=
  let p := runEntries env cfg fs (selectRows cfg catalog)
  (p.1, mergeLedger ledger p.2)

/-- Invariant behind idempotence: after an entry has been processed once,
the state is "settled" for it -- either the cache probe will hit (a
sufficiently long artifact exists), or every path through the entry is a
no-op: nothing was retrievable, only an empty document is retrievable
over an empty cached one, or the frozen document computes insufficient
text.  `computeText` depends only on the document content, so this
predicate captures everything a later pass needs. -/
def GOOD (env : Env) (cfg : Config) (fs : FS) (r : Row) : Prop :=
  (∃ c, fs.txts (txtPath cfg.out r) = some c ∧ cfg.min_len ≤ c.length) ∨
  (fs.pdfs (pdfPath cfg.out r) = none ∧ env.network r.download_url = none) ∨
  (fs.pdfs (pdfPath cfg.out r) = some "" ∧ env.network r.download_url = none) ∨
  (fs.pdfs (pdfPath cfg.out r) = some "" ∧
    env.network r.download_url = some "" ∧
    (computeText env cfg "").1.length < cfg.min_len) ∨
  (∃ d, fs.pdfs (pdfPath cfg.out r) = some d ∧ d ≠ "" ∧
    (computeText env cfg d).1.length < cfg.min_len)

/-- Sample data for concrete checks. -/
def row1 : Row := ⟨2021, "A", "Math", "u1"⟩

def rec1 : Rec := ⟨2021, "A", "Math", "u1", "exams/texts_o/2021_A.txt", "pdf", 1200⟩

def rec2 : Rec := ⟨2020, "B", "Math", "u2", "exams/texts_o/2020_B.txt", "pdf", 1500⟩

def rec1c : Rec := ⟨2021, "A", "Math", "u1", "exams/texts_o/2021_A.txt", "cached", 900⟩

/-- A concrete environment: every URL retrieves the document `"P"`, the
extraction library reads `"X"` out of any document, and neither external
recognition binary is installed. -/
def cexEnv : Env := ⟨fun _ => some "P", fun _ => some "X", false, false, fun _ => none, fun s => s⟩

def cexCfg : Config := ⟨"o", none, 0, 1, false⟩

def emptyFS : FS := ⟨fun _ => none, fun _ => none⟩

theorem insertB_perm {α : Type} (le : α → α → Bool) (a : α) (l : List α) :
    List.Perm (insertB le a l) (a :: l) := by
  induction l with
  | nil => exact List.Perm.refl _
  | cons b t ih =>
    by_cases h : le a b = true
    · simp [insertB, h]
    · simp only [insertB, h, if_false]
      exact (ih.cons b).trans (List.Perm.swap a b t)

theorem isortB_perm {α : Type} (le : α → α → Bool) (l : List α) :
    List.Perm (isortB le l) l := by
  induction l with
  | nil => exact List.Perm.refl _
  | cons a t ih => exact (insertB_perm le a (isortB le t)).trans (ih.cons a)

theorem mem_insertB {α : Type} {le : α → α → Bool} {a x : α} {l : List α}
    (h : x ∈ insertB le a l) : x = a ∨ x ∈ l := by
  have := (insertB_perm le a l).mem_iff.mp h
  simpa using this

theorem pairwise_insertB {α : Type} {le : α → α → Bool}
    (htr : ∀ a b c, le a b = true → le b c = true → le a c = true)
    (hto : ∀ a b, le a b = true ∨ le b a = true) (a : α) {l : List α}
    (hl : l.Pairwise fun x y => le x y = true) :
    (insertB le a l).Pairwise fun x y => le x y = true := by
  induction l with
  | nil => simp [insertB]
  | cons b t ih =>
    rcases List.pairwise_cons.mp hl with ⟨hb, ht⟩
    by_cases h : le a b = true
    · simp only [insertB, h, if_true]
      refine List.pairwise_cons.mpr ⟨?_, hl⟩
      intro x hx
      rcases List.mem_cons.mp hx with rfl | hx
      · exact h
      · exact htr a b x h (hb x hx)
    · simp only [insertB, h, if_false]
      refine List.pairwise_cons.mpr ⟨?_, ih ht⟩
      intro x hx
      rcases mem_insertB hx with rfl | hx
      · rcases hto x b with h1 | h1
        · exact absurd h1 h
        · exact h1
      · exact hb x hx

theorem sorted_isortB {α : Type} {le : α → α → Bool}
    (htr : ∀ a b c, le a b = true → le b c = true → le a c = true)
    (hto : ∀ a b, le a b = true ∨ le b a = true) (l : List α) :
    (isortB le l).Pairwise fun x y => le x y = true := by
  induction l with
  | nil => simp [isortB]
  | cons a t ih => exact pairwise_insertB htr hto a ih

theorem isortB_of_sorted {α : Type} {le : α → α → Bool} {l : List α}
    (hl : l.Pairwise fun x y => le x y = true) : isortB le l = l := by
  induction l with
  | nil => rfl
  | cons a t ih =>
    rcases List.pairwise_cons.mp hl with ⟨ha, ht⟩
    rw [isortB, ih ht]
    cases t with
    | nil => rfl
    | cons b u => simp [insertB, ha b (List.mem_cons_self b u)]

theorem length_isortB {α : Type} (le : α → α → Bool) (l : List α) :
    (isortB le l).length = l.length :=
  (isortB_perm le l).length_eq

theorem char_eq_of_toNat {a b : Char} (h : a.toNat = b.toNat) : a = b :=
  Char.ext (UInt32.ext h)

theorem clLt_irrefl : ∀ l : List Char, clLt l l = false
  | [] => rfl
  | c :: t => by simp [clLt, Nat.lt_irrefl, clLt_irrefl t]

theorem clLt_trans : ∀ {a b c : List Char},
    clLt a b = true → clLt b c = true → clLt a c = true := by
  intro a
  induction a with
  | nil =>
    intro b c h1 h2
    cases b with
    | nil => simp [clLt] at h1
    | cons y bs =>
      cases c with
      | nil => simp [clLt] at h2
      | cons z cs => simp [clLt]
  | cons x as ih =>
    intro b c h1 h2
    cases b with
    | nil => simp [clLt] at h1
    | cons y bs =>
      cases c with
      | nil => simp [clLt] at h2
      | cons z cs =>
        simp only [clLt] at h1 h2 ⊢
        by_cases hxy : x.toNat < y.toNat
        · by_cases hyz : y.toNat < z.toNat
          · simp [Nat.lt_trans hxy hyz]
          · simp only [hyz, if_false] at h2
            by_cases hzy : z.toNat < y.toNat
            · simp [hzy] at h2
            · have : x.toNat < z.toNat := by omega
              simp [this]
        · simp only [hxy, if_false] at h1
          by_cases hyx : y.toNat < x.toNat
          · simp [hyx] at h1
          · simp only [hyx, if_false] at h1
            by_cases hyz : y.toNat < z.toNat
            · have : x.toNat < z.toNat := by omega
              simp [this]
            · simp only [hyz, if_false] at h2
              by_cases hzy : z.toNat < y.toNat
              · simp [hzy] at h2
              · simp only [hzy, if_false] at h2
                have hxz : ¬ x.toNat < z.toNat := by omega
                have hzx : ¬ z.toNat < x.toNat := by omega
                simp [hxz, hzx, ih h1 h2]

theorem clLt_conn : ∀ a b : List Char, clLt a b = true ∨ clLt b a = true ∨ a = b := by
  intro a
  induction a with
  | nil =>
    intro b
    cases b with
    | nil => right; right; rfl
    | cons y bs => left; simp [clLt]
  | cons x as ih =>
    intro b
    cases b with
    | nil => right; left; simp [clLt]
    | cons y bs =>
      by_cases hxy : x.toNat < y.toNat
      · left; simp [clLt, hxy]
      · by_cases hyx : y.toNat < x.toNat
        · right; left; simp [clLt, hyx]
        · have hx : x = y := char_eq_of_toNat (by omega)
          subst hx
          rcases ih bs with h | h | h
          · left; simp [clLt, hxy, h]
          · right; left; simp [clLt, hxy, h]
          · right; right; rw [h]

theorem clLt_asymm {a b : List Char} (h1 : clLt a b = true) :
    clLt b a = false := by
  by_contra h
  have h2 : clLt b a = true := by
    cases hba : clLt b a
    · exact absurd hba h
    · rfl
  have := clLt_trans h1 h2
  rw [clLt_irrefl] at this
  exact Bool.false_ne_true this

theorem yearGE_trans : ∀ a b c : Row,
    yearGE a b = true → yearGE b c = true → yearGE a c = true := by
  intro a b c h1 h2
  simp only [yearGE, decide_eq_true_eq] at h1 h2 ⊢
  omega

theorem yearGE_total : ∀ a b : Row, yearGE a b = true ∨ yearGE b a = true := by
  intro a b
  simp only [yearGE, decide_eq_true_eq]
  omega

theorem keyGE_trans : ∀ a b c : Rec,
    keyGE a b = true → keyGE b c = true → keyGE a c = true := by
  intro a b c h1 h2
  simp only [keyGE, Bool.or_eq_true, Bool.and_eq_true, decide_eq_true_eq,
    Bool.not_eq_true'] at h1 h2 ⊢
  rcases h1 with h1 | ⟨h1e, h1s⟩
  · rcases h2 with h2 | ⟨h2e, h2s⟩
    · left; omega
    · left; omega
  · rcases h2 with h2 | ⟨h2e, h2s⟩
    · left; omega
    · right
      refine ⟨by omega, ?_⟩
      rcases clLt_conn a.school.data c.school.data with h | h | h
      · rcases clLt_conn a.school.data b.school.data with hab | hab | hab
        · rw [hab] at h1s; exact absurd h1s (by simp)
        · have := clLt_trans hab h
          rw [this] at h2s; exact absurd h2s (by simp)
        · rw [hab] at h
          exact absurd h (by simp [h2s])
      · exact clLt_asymm h
      · rw [h, clLt_irrefl]

theorem hasUrl_iff {m : List Rec} {s : String} :
    hasUrl m s = true ↔ ∃ r ∈ m, r.download_url = s := by
  simp [hasUrl, List.any_eq_true]

theorem urlsOf_map_keep {m : List Rec} {u : Rec} :
    urlsOf (m.map fun r => if r.download_url = u.download_url then u else r) =
      urlsOf m := by
  simp only [urlsOf, List.map_map]
  refine List.map_congr_left ?_
  intro r _
  by_cases h : r.download_url = u.download_url
  · simp [Function.comp, h]
  · simp [Function.comp, h]

theorem urlsOf_dictInsert_of_has {m : List Rec} {u : Rec}
    (h : hasUrl m u.download_url = true) :
    urlsOf (dictInsert m u) = urlsOf m := by
  rw [dictInsert, if_pos h]
  exact urlsOf_map_keep

theorem dictInsert_of_not_has {m : List Rec} {u : Rec}
    (h : hasUrl m u.download_url = false) : dictInsert m u = m ++ [u] := by
  rw [dictInsert, if_neg (by simp [h])]

theorem hasUrl_eq_of_urlsOf {m1 m2 : List Rec} (h : urlsOf m1 = urlsOf m2)
    (s : String) : hasUrl m1 s = hasUrl m2 s := by
  have hiff : ∀ m : List Rec, hasUrl m s = true ↔ s ∈ urlsOf m := by
    intro m
    rw [hasUrl_iff]
    constructor
    · rintro ⟨r, hr, hru⟩
      exact List.mem_map.mpr ⟨r, hr, hru⟩
    · intro hm
      rcases List.mem_map.mp hm with ⟨r, hr, hru⟩
      exact ⟨r, hr, hru⟩
  cases h1 : hasUrl m1 s <;> cases h2 : hasUrl m2 s
  · rfl
  · have hmem := (hiff m2).mp h2
    rw [← h] at hmem
    have := (hiff m1).mpr hmem
    rw [h1] at this
    exact this
  · have hmem := (hiff m1).mp h1
    rw [h] at hmem
    have := (hiff m2).mpr hmem
    rw [h2] at this
    exact this.symm
  · rfl

theorem nodup_urlsOf_dictInsert {m : List Rec} {u : Rec}
    (h : (urlsOf m).Nodup) : (urlsOf (dictInsert m u)).Nodup := by
  cases hh : hasUrl m u.download_url
  · rw [dictInsert_of_not_has hh]
    have hnot : u.download_url ∉ urlsOf m := by
      intro hmem
      rcases List.mem_map.mp hmem with ⟨r, hr, hru⟩
      have : hasUrl m u.download_url = true := hasUrl_iff.mpr ⟨r, hr, hru⟩
      rw [hh] at this
      exact Bool.false_ne_true this
    have : urlsOf (m ++ [u]) = urlsOf m ++ [u.download_url] := by
      simp [urlsOf]
    rw [this]
    exact List.nodup_append.mpr
      ⟨h, List.nodup_singleton _, by
        intro x hx hx2
        rw [List.mem_singleton] at hx2
        exact hnot (hx2 ▸ hx)⟩
  · rw [urlsOf_dictInsert_of_has hh]
    exact h

theorem nodup_urlsOf_foldl {us : List Rec} : ∀ {m : List Rec}, (urlsOf m).Nodup →
    (urlsOf (List.foldl dictInsert m us)).Nodup := by
  induction us with
  | nil => intro m h; simpa using h
  | cons u t ih => intro m h; exact ih (nodup_urlsOf_dictInsert h)

theorem foldl_dictInsert_nodup : ∀ {l m : List Rec}, (urlsOf (m ++ l)).Nodup →
    List.foldl dictInsert m l = m ++ l := by
  intro l
  induction l with
  | nil => intro m h; simp
  | cons a t ih =>
    intro m h
    have h' : (urlsOf m ++ a.download_url :: urlsOf t).Nodup := by
      simpa [urlsOf] using h
    have hna : hasUrl m a.download_url = false := by
      cases hx : hasUrl m a.download_url
      · rfl
      · rcases hasUrl_iff.mp hx with ⟨r, hr, hru⟩
        have hmem : a.download_url ∈ urlsOf m := List.mem_map.mpr ⟨r, hr, hru⟩
        rcases List.nodup_append.mp h' with ⟨_, _, hdisj⟩
        exact absurd (hdisj hmem (List.mem_cons_self _ _)) (fun hf => hf)
    rw [List.foldl_cons, dictInsert_of_not_has hna]
    have h2 : (urlsOf ((m ++ [a]) ++ t)).Nodup := by
      simpa [urlsOf] using h
    rw [ih h2]
    simp

theorem dictOf_of_nodup {l : List Rec} (h : (urlsOf l).Nodup) : dictOf l = l := by
  have := foldl_dictInsert_nodup (l := l) (m := [])
  rw [dictOf]
  rw [this (by simpa using h)]
  simp

theorem hasUrl_dictInsert_mono {m : List Rec} {u : Rec} {s : String}
    (h : hasUrl m s = true) : hasUrl (dictInsert m u) s = true := by
  rcases hasUrl_iff.mp h with ⟨r, hr, hru⟩
  by_cases hc : hasUrl m u.download_url = true
  · rw [dictInsert, if_pos hc]
    by_cases hru2 : r.download_url = u.download_url
    · refine hasUrl_iff.mpr ⟨u, List.mem_map.mpr ⟨r, hr, by simp [hru2]⟩, ?_⟩
      rw [← hru2, hru]
    · exact hasUrl_iff.mpr ⟨r, List.mem_map.mpr ⟨r, hr, by simp [hru2]⟩, hru⟩
  · rw [dictInsert_of_not_has (by simpa using hc)]
    exact hasUrl_iff.mpr ⟨r, by simp [hr], hru⟩

theorem hasUrl_dictInsert_self {m : List Rec} {u : Rec} :
    hasUrl (dictInsert m u) u.download_url = true := by
  by_cases hc : hasUrl m u.download_url = true
  · rcases hasUrl_iff.mp hc with ⟨r, hr, hru⟩
    rw [dictInsert, if_pos hc]
    exact hasUrl_iff.mpr ⟨u, List.mem_map.mpr ⟨r, hr, by simp [hru]⟩, rfl⟩
  · rw [dictInsert_of_not_has (by simpa using hc)]
    exact hasUrl_iff.mpr ⟨u, by simp, rfl⟩

theorem hasUrl_foldl_mono {us : List Rec} : ∀ {m : List Rec} {s : String},
    hasUrl m s = true → hasUrl (List.foldl dictInsert m us) s = true := by
  induction us with
  | nil => intro m s h; simpa using h
  | cons u t ih => intro m s h; exact ih (hasUrl_dictInsert_mono h)

theorem hasUrl_foldl_of_mem {us : List Rec} {u : Rec} (hu : u ∈ us) :
    ∀ {m : List Rec}, hasUrl (List.foldl dictInsert m us) u.download_url = true := by
  induction us with
  | nil => cases hu
  | cons w t ih =>
    intro m
    rw [List.foldl_cons]
    rcases List.mem_cons.mp hu with rfl | hu'
    · exact hasUrl_foldl_mono hasUrl_dictInsert_self
    · exact ih hu'

theorem foldl_lwStep (t : List Rec) (s : String) (a : Option Rec) :
    List.foldl (lwStep s) a t = match lastWrite t s with
      | some v => some v
      | none => a := by
  induction t generalizing a with
  | nil => simp [lastWrite]
  | cons w t ih =>
    rw [List.foldl_cons, ih]
    have hr : lastWrite (w :: t) s = (match lastWrite t s with
        | some v => some v
        | none => lwStep s none w) := by
      rw [lastWrite, List.foldl_cons, ih]
    rw [hr]
    cases hlw : lastWrite t s with
    | some v => simp
    | none =>
      simp only []
      unfold lwStep
      by_cases hw : w.download_url = s
      · simp [hw]
      · simp [hw]

theorem lastWrite_cons (u : Rec) (t : List Rec) (s : String) :
    lastWrite (u :: t) s = (match lastWrite t s with
      | some v => some v
      | none => if u.download_url = s then some u else none) := by
  rw [lastWrite, List.foldl_cons, foldl_lwStep]
  unfold lwStep
  rfl

theorem lastWrite_snoc (ts : List Rec) (u : Rec) (s : String) :
    lastWrite (ts ++ [u]) s =
      if u.download_url = s then some u else lastWrite ts s := by
  rw [lastWrite, List.foldl_append, List.foldl_cons, List.foldl_nil]
  rfl

theorem foldl_dictInsert_lastWrite : ∀ (us : List Rec) {m : List Rec} {r v : Rec},
    r ∈ List.foldl dictInsert m us → lastWrite us r.download_url = some v →
    r = v := by
  intro us
  induction us using List.reverseRecOn with
  | nil => intro m r v hr hl; simp [lastWrite] at hl
  | append_singleton ts u ih =>
    intro m r v hr hl
    rw [List.foldl_append, List.foldl_cons, List.foldl_nil] at hr
    rw [lastWrite_snoc] at hl
    by_cases hus : r.download_url = u.download_url
    · rw [if_pos hus.symm] at hl
      have hv : v = u := by
        have := hl
        injection this with h
        exact h.symm
      rw [hv]
      by_cases hc : hasUrl (List.foldl dictInsert m ts) u.download_url = true
      · rw [dictInsert, if_pos hc] at hr
        rcases List.mem_map.mp hr with ⟨r0, hr0, hre⟩
        by_cases h0 : r0.download_url = u.download_url
        · rw [if_pos h0] at hre
          exact hre.symm
        · rw [if_neg h0] at hre
          rw [hre] at h0
          exact absurd hus h0
      · rw [dictInsert_of_not_has (by simpa using hc)] at hr
        rcases List.mem_append.mp hr with hr' | hr'
        · exact absurd (hasUrl_iff.mpr ⟨r, hr', hus⟩) (by simpa using hc)
        · rw [List.mem_singleton] at hr'
          exact hr'
    · rw [if_neg (fun hh => hus hh.symm)] at hl
      have hrN : r ∈ List.foldl dictInsert m ts := by
        by_cases hc : hasUrl (List.foldl dictInsert m ts) u.download_url = true
        · rw [dictInsert, if_pos hc] at hr
          rcases List.mem_map.mp hr with ⟨r0, hr0, hre⟩
          by_cases h0 : r0.download_url = u.download_url
          · rw [if_pos h0] at hre
            rw [← hre] at hus
            exact absurd rfl hus
          · rw [if_neg h0] at hre
            rw [← hre]
            exact hr0
        · rw [dictInsert_of_not_has (by simpa using hc)] at hr
          rcases List.mem_append.mp hr with hr' | hr'
          · exact hr'
          · rw [List.mem_singleton] at hr'
            rw [hr'] at hus
            exact absurd rfl hus
      exact ih hrN hl

theorem foldl_dictInsert_of_all_has : ∀ (us : List Rec) {m : List Rec},
    (∀ u ∈ us, hasUrl m u.download_url = true) →
    List.foldl dictInsert m us =
      m.map fun r => (lastWrite us r.download_url).getD r := by
  intro us
  induction us with
  | nil =>
    intro m h
    simp [lastWrite]
  | cons u t ih =>
    intro m h
    have hu := h u (List.mem_cons_self u t)
    rw [List.foldl_cons, dictInsert, if_pos hu]
    have hurls : urlsOf (m.map fun r =>
        if r.download_url = u.download_url then u else r) = urlsOf m :=
      urlsOf_map_keep
    have ht : ∀ v ∈ t, hasUrl (m.map fun r =>
        if r.download_url = u.download_url then u else r) v.download_url = true := by
      intro v hv
      rw [hasUrl_eq_of_urlsOf hurls]
      exact h v (List.mem_cons_of_mem u hv)
    rw [ih ht, List.map_map]
    refine List.map_congr_left ?_
    intro r _
    simp only [Function.comp]
    by_cases hru : r.download_url = u.download_url
    · simp only [if_pos hru]
      rw [hru, lastWrite_cons]
      cases hlw : lastWrite t u.download_url with
      | some v => simp
      | none => simp
    · simp only [if_neg hru]
      rw [lastWrite_cons]
      rw [if_neg (fun hh => hru hh.symm)]
      cases hlw : lastWrite t r.download_url with
      | some v => simp
      | none => simp

theorem foldl_dictInsert_absorb {M us : List Rec}
    (h1 : ∀ u ∈ us, hasUrl M u.download_url = true)
    (h2 : ∀ r ∈ M, ∀ v, lastWrite us r.download_url = some v → r = v) :
    List.foldl dictInsert M us = M := by
  rw [foldl_dictInsert_of_all_has us h1]
  have hpt : ∀ r ∈ M, (lastWrite us r.download_url).getD r = r := by
    intro r hr
    cases hlw : lastWrite us r.download_url with
    | none => rfl
    | some v => simpa using (h2 r hr v hlw).symm
  calc M.map (fun r => (lastWrite us r.download_url).getD r)
      = M.map id := List.map_congr_left (by intro r hr; simpa using hpt r hr)
    _ = M := List.map_id M

theorem keyGE_total : ∀ a b : Rec, keyGE a b = true ∨ keyGE b a = true := by
  intro a b
  simp only [keyGE, Bool.or_eq_true, Bool.and_eq_true, decide_eq_true_eq,
    Bool.not_eq_true']
  rcases Int.lt_trichotomy a.year b.year with h | h | h
  · right; left; exact h
  · rcases clLt_conn a.school.data b.school.data with hs | hs | hs
    · right; right; exact ⟨h.symm, clLt_asymm hs⟩
    · left; right; exact ⟨h, clLt_asymm hs⟩
    · left; right; exact ⟨h, by rw [hs, clLt_irrefl]⟩
  · left; left; exact h

theorem sortRecs_perm (l : List Rec) : List.Perm (sortRecs l) l := isortB_perm keyGE l

theorem sortRecs_sorted (l : List Rec) :
    (sortRecs l).Pairwise fun a b => keyGE a b = true :=
  sorted_isortB keyGE_trans keyGE_total l

theorem sortRecs_of_sorted {l : List Rec}
    (h : l.Pairwise fun a b => keyGE a b = true) : sortRecs l = l :=
  isortB_of_sorted h

theorem hasUrl_perm {m1 m2 : List Rec} (h : List.Perm m1 m2) (s : String) :
    hasUrl m1 s = hasUrl m2 s := by
  cases h1 : hasUrl m1 s <;> cases h2 : hasUrl m2 s
  · rfl
  · rcases hasUrl_iff.mp h2 with ⟨r, hr, hru⟩
    have hx : hasUrl m1 s = true := hasUrl_iff.mpr ⟨r, h.mem_iff.mpr hr, hru⟩
    rw [h1] at hx
    exact hx
  · rcases hasUrl_iff.mp h1 with ⟨r, hr, hru⟩
    have hx : hasUrl m2 s = true := hasUrl_iff.mpr ⟨r, h.mem_iff.mp hr, hru⟩
    rw [h2] at hx
    exact hx.symm
  · rfl

theorem nodup_urlsOf_perm {m1 m2 : List Rec} (h : List.Perm m1 m2)
    (hn : (urlsOf m1).Nodup) : (urlsOf m2).Nodup := by
  have h2 := (h.map fun r => r.download_url).nodup (by simpa [urlsOf] using hn)
  simpa [urlsOf] using h2

/-- Merging the same batch of records twice gives the same ledger as
merging it once: the re-merge only replaces each row by the batch's last
write for its URL, which is already there, and re-sorts a sorted list. -/
theorem mergeLedger_idem (L us : List Rec) :
    mergeLedger (mergeLedger L us) us = mergeLedger L us := by
  have hE : (urlsOf (dictOf L)).Nodup := nodup_urlsOf_foldl (by simp [urlsOf])
  have hD : (urlsOf (List.foldl dictInsert (dictOf L) us)).Nodup :=
    nodup_urlsOf_foldl hE
  have hperm : List.Perm (sortRecs (List.foldl dictInsert (dictOf L) us))
      (List.foldl dictInsert (dictOf L) us) := sortRecs_perm _
  have hMnodup : (urlsOf (sortRecs (List.foldl dictInsert (dictOf L) us))).Nodup :=
    nodup_urlsOf_perm hperm.symm hD
  show sortRecs (List.foldl dictInsert
      (dictOf (sortRecs (List.foldl dictInsert (dictOf L) us))) us) =
    mergeLedger L us
  rw [dictOf_of_nodup hMnodup]
  have habs : List.foldl dictInsert
      (sortRecs (List.foldl dictInsert (dictOf L) us)) us =
      sortRecs (List.foldl dictInsert (dictOf L) us) := by
    refine foldl_dictInsert_absorb ?_ ?_
    · intro u hu
      rw [hasUrl_perm hperm u.download_url]
      exact hasUrl_foldl_of_mem hu
    · intro r hr v hlw
      exact foldl_dictInsert_lastWrite us (hperm.mem_iff.mp hr) hlw
  rw [habs]
  exact sortRecs_of_sorted (sortRecs_sorted _)

/-- C2: merging one record with a fresh `download_url` into a ledger (which
by the Ledger invariant has pairwise-distinct URLs) grows the row count by
exactly one; merging a record with an existing `download_url` keeps the
row count and the merged ledger's row at that URL carries the new record's
`method` and `text_len`. -/
theorem merge_monotone (L : List Rec) (u : Rec) (hnd : (urlsOf L).Nodup) :
    (hasUrl L u.download_url = false →
      (mergeLedger L [u]).length = L.length + 1) ∧
    (hasUrl L u.download_url = true →
      (mergeLedger L [u]).length = L.length ∧
      ∀ r ∈ mergeLedger L [u], r.download_url = u.download_url →
        r.method = u.method ∧ r.text_len = u.text_len) := by
  have hfold : List.foldl dictInsert (dictOf L) [u] = dictInsert L u := by
    rw [dictOf_of_nodup hnd]
    simp
  constructor
  · intro h
    show (sortRecs (List.foldl dictInsert (dictOf L) [u])).length = L.length + 1
    rw [hfold, dictInsert_of_not_has h, (sortRecs_perm _).length_eq]
    simp
  · intro h
    constructor
    · show (sortRecs (List.foldl dictInsert (dictOf L) [u])).length = L.length
      rw [hfold, dictInsert, if_pos h, (sortRecs_perm _).length_eq,
        List.length_map]
    · intro r hr hru
      have hr2 : r ∈ sortRecs (List.foldl dictInsert (dictOf L) [u]) := hr
      rw [hfold] at hr2
      have hr3 : r ∈ dictInsert L u := (sortRecs_perm _).mem_iff.mp hr2
      rw [dictInsert, if_pos h] at hr3
      rcases List.mem_map.mp hr3 with ⟨r0, hr0, hre⟩
      by_cases h0 : r0.download_url = u.download_url
      · rw [if_pos h0] at hre
        rw [← hre]
        exact ⟨rfl, rfl⟩
      · rw [if_neg h0] at hre
        rw [← hre] at hru
        exact absurd hru h0

theorem merge_monotone_witness :
    (mergeLedger [rec1] [rec2]).length = 2 ∧
    (mergeLedger [rec1] [rec1c]).length = 1 := by
  constructor
  · have h := (merge_monotone [rec1] rec2 (by decide)).1 (by decide)
    simpa using h
  · have h := ((merge_monotone [rec1] rec1c (by decide)).2 (by decide)).1
    simpa using h

/-- C3: the `download_url` values of the rows of the ledger written by any
run are pairwise distinct (`Nodup`), whatever the existing ledger held and
whatever records the run accepted. -/
theorem ledger_urls_nodup (env : Env) (cfg : Config) (catalog : List Row)
    (fs : FS) (ledger : List Rec) :
    (urlsOf (process_csv env cfg catalog fs ledger).2).Nodup := by
  show (urlsOf (mergeLedger ledger
    (runEntries env cfg fs (selectRows cfg catalog)).2)).Nodup
  exact nodup_urlsOf_perm (sortRecs_perm _).symm
    (nodup_urlsOf_foldl (nodup_urlsOf_foldl (by simp [urlsOf])))

/-- C4: in the ledger written by any run, rows are non-increasing in
`year`, and rows of equal `year` are non-increasing in `school` (the
later row's school is not code-point greater than the earlier row's). -/
theorem ledger_rows_ordered (env : Env) (cfg : Config) (catalog : List Row)
    (fs : FS) (ledger : List Rec) :
    (process_csv env cfg catalog fs ledger).2.Pairwise
      fun a b => b.year ≤ a.year ∧
        (a.year = b.year → clLt a.school.data b.school.data = false) := by
  have h := sortRecs_sorted
    (List.foldl dictInsert (dictOf ledger)
      (runEntries env cfg fs (selectRows cfg catalog)).2)
  refine List.Pairwise.imp ?_ h
  intro a b hk
  simp only [keyGE, Bool.or_eq_true, Bool.and_eq_true, decide_eq_true_eq,
    Bool.not_eq_true'] at hk
  rcases hk with hk | ⟨he, hs⟩
  · exact ⟨le_of_lt hk, fun heq => absurd hk (by omega)⟩
  · exact ⟨le_of_eq he.symm, fun _ => hs⟩

/-- C8 (amended): the processed window is taken from the catalog sorted by
`year` descending (a permutation of the catalog, non-increasing in
`year`); with a nonzero limit it is the `limit`-sized slice starting at
`offset`, while with no limit -- or a zero limit, which Python's
truthiness test treats as "no limit" -- it is everything from `offset`
on.  `process_csv` folds over exactly `selectRows cfg catalog`, in list
order, so this list is the processing order. -/
theorem window_spec (cfg : Config) (catalog : List Row) :
    List.Perm (sortYearDesc catalog) catalog ∧
    ((sortYearDesc catalog).Pairwise fun a b => b.year ≤ a.year) ∧
    (cfg.limit = none ∨ cfg.limit = some 0 →
      selectRows cfg catalog = (sortYearDesc catalog).drop cfg.offset) ∧
    (∀ l : Nat, cfg.limit = some l → l ≠ 0 →
      selectRows cfg catalog = ((sortYearDesc catalog).drop cfg.offset).take l) := by
  refine ⟨isortB_perm yearGE catalog, ?_, ?_, ?_⟩
  · refine List.Pairwise.imp ?_ (sorted_isortB yearGE_trans yearGE_total catalog)
    intro a b h
    simpa [yearGE] using h
  · rintro (h | h) <;> simp [selectRows, h]
  · intro l hl hne
    simp [selectRows, hl, hne]

theorem window_spec_witness :
    selectRows ⟨"o", some 2, 1, 1000, true⟩ [row1] =
      ((sortYearDesc [row1]).drop 1).take 2 ∧
    selectRows cexCfg [row1] = (sortYearDesc [row1]).drop 0 :=
  ⟨(window_spec ⟨"o", some 2, 1, 1000, true⟩ [row1]).2.2.2 2 rfl (by decide),
   (window_spec cexCfg [row1]).2.2.1 (Or.inl rfl)⟩

/-- C8 counterexample: with `limit = 0` the claim predicts the empty
window (indices `offset` through `offset + limit - 1`), but the code's
falsy-`limit` test selects the whole tail: one catalog row is processed. -/
theorem window_zero_limit_cex :
    selectRows ⟨"o", some 0, 0, 1000, true⟩ [row1] = [row1] ∧
    ([row1] : List Row) ≠ [] := by
  constructor
  · decide
  · decide

/-- C10: whenever the per-entry loop accepts no record at all, the run
still rewrites the persisted ledger as the re-sorted dict of the previous
rows; when the previous ledger already satisfies its invariants
(distinct URLs, sorted), the rewrite reproduces it byte-identically. -/
theorem full_rewrite_on_empty_run (env : Env) (cfg : Config)
    (catalog : List Row) (fs : FS) (L : List Rec)
    (h : (runEntries env cfg fs (selectRows cfg catalog)).2 = []) :
    (process_csv env cfg catalog fs L).2 = sortRecs (dictOf L) ∧
    ((urlsOf L).Nodup → (L.Pairwise fun a b => keyGE a b = true) →
      (process_csv env cfg catalog fs L).2 = L) := by
  have h1 : (process_csv env cfg catalog fs L).2 = sortRecs (dictOf L) := by
    show mergeLedger L (runEntries env cfg fs (selectRows cfg catalog)).2 = _
    rw [h]
    rfl
  refine ⟨h1, ?_⟩
  intro hnd hsorted
  rw [h1, dictOf_of_nodup hnd]
  exact sortRecs_of_sorted hsorted

theorem full_rewrite_witness :
    (process_csv cexEnv cexCfg [] emptyFS [rec1]).2 = [rec1] :=
  (full_rewrite_on_empty_run cexEnv cexCfg [] emptyFS [rec1] rfl).2
    (by decide) (by decide)

theorem subAux_chars : ∀ (l : List Char) (b : Bool), ∀ c ∈ subAux b l,
    keepChar c = true := by
  intro l
  induction l with
  | nil => intro b c hc; simp [subAux] at hc
  | cons d t ih =>
    intro b c hc
    simp only [subAux] at hc
    by_cases hd : keepChar d = true
    · rw [if_pos hd] at hc
      rcases List.mem_cons.mp hc with rfl | hc
      · exact hd
      · exact ih false c hc
    · rw [if_neg hd] at hc
      cases b with
      | true =>
        rw [if_pos rfl] at hc
        exact ih true c hc
      | false =>
        rw [if_neg (by simp)] at hc
        rcases List.mem_cons.mp hc with rfl | hc
        · decide
        · exact ih true c hc

theorem head_dropWhile_not {α : Type} (p : α → Bool) :
    ∀ (l : List α) {a : α}, (l.dropWhile p).head? = some a → p a = false := by
  intro l
  induction l with
  | nil => intro a h; simp [List.dropWhile] at h
  | cons c t ih =>
    intro a h
    by_cases hc : p c = true
    · rw [List.dropWhile_cons, if_pos hc] at h
      exact ih h
    · rw [List.dropWhile_cons, if_neg hc] at h
      simp only [List.head?_cons, Option.some.injEq] at h
      rw [← h]
      cases hx : p c
      · rfl
      · exact absurd hx hc

theorem getLast?_dropWhile {α : Type} (p : α → Bool) (l : List α)
    (h : l.dropWhile p ≠ []) : (l.dropWhile p).getLast? = l.getLast? := by
  conv_rhs => rw [← List.takeWhile_append_dropWhile p l]
  rw [List.getLast?_append]
  cases hd : (l.dropWhile p).getLast? with
  | none => exact absurd (List.getLast?_eq_none_iff.mp hd) h
  | some x => rw [Option.or_some]

theorem stripUnd_no_lead (l : List Char) : (stripUnd l).head? ≠ some '_' := by
  intro hcon
  simp only [stripUnd] at hcon
  rw [List.head?_reverse] at hcon
  by_cases hB : (l.dropWhile isUnd).reverse.dropWhile isUnd = []
  · rw [hB] at hcon
    simp at hcon
  · rw [getLast?_dropWhile isUnd _ hB, List.getLast?_reverse] at hcon
    have h2 := head_dropWhile_not isUnd l hcon
    simp [isUnd] at h2

theorem stripUnd_no_trail (l : List Char) : (stripUnd l).getLast? ≠ some '_' := by
  intro hcon
  simp only [stripUnd] at hcon
  rw [List.getLast?_reverse] at hcon
  have h2 := head_dropWhile_not isUnd _ hcon
  simp [isUnd] at h2

theorem head?_take {α : Type} (l : List α) : (l.take 80).head? = l.head? := by
  cases l with
  | nil => rfl
  | cons a t => rfl

theorem subAux_true_append {bad rest : List Char}
    (h : ∀ c ∈ bad, keepChar c = false) :
    subAux true (bad ++ rest) = subAux true rest := by
  induction bad with
  | nil => rfl
  | cons d t ih =>
    have hd := h d (List.mem_cons_self d t)
    have ih2 := ih fun c hc => h c (List.mem_cons_of_mem d hc)
    simp [subAux, hd, ih2]

theorem subAux_true_eq_false {l : List Char}
    (h : l.head?.all keepChar = true) : subAux true l = subAux false l := by
  cases l with
  | nil => rfl
  | cons d t =>
    have hd : keepChar d = true := by simpa using h
    simp [subAux, hd]

theorem subNonKeep_run {bad rest : List Char} (h1 : bad ≠ [])
    (h2 : ∀ c ∈ bad, keepChar c = false)
    (h3 : rest.head?.all keepChar = true) :
    subNonKeep (bad ++ rest) = '_' :: subNonKeep rest := by
  cases bad with
  | nil => exact absurd rfl h1
  | cons d t =>
    have hd := h2 d (List.mem_cons_self d t)
    simp only [subNonKeep, List.cons_append, subAux]
    rw [if_neg (by simp [hd]), if_neg (by simp)]
    show ('_' :: subAux true (t ++ rest)) = '_' :: subAux false rest
    rw [subAux_true_append fun c hc => h2 c (List.mem_cons_of_mem d hc)]
    rw [subAux_true_eq_false h3]

/-- C9 (amended): `safe_name` is a pure total function whose result has at
most 80 characters, all from the kept class (word characters, CJK range,
hyphen -- the separator `'_'` is itself a word character); each maximal
run of other characters becomes a single separator; the result never
starts with a separator, and the value before the final truncation never
ends with one (the truncation to 80, applied after the strip, can leave a
trailing separator -- see the counterexample). -/
theorem safe_name_spec (name : String) :
    (safe_name name).length ≤ 80 ∧
    (∀ c ∈ (safe_name name).data, keepChar c = true) ∧
    (safe_name name).data.head? ≠ some '_' ∧
    (stripUnd (subNonKeep name.data)).getLast? ≠ some '_' ∧
    (∀ bad rest : List Char, bad ≠ [] → (∀ c ∈ bad, keepChar c = false) →
      rest.head?.all keepChar = true →
      subNonKeep (bad ++ rest) = '_' :: subNonKeep rest) := by
  refine ⟨?_, ?_, ?_, stripUnd_no_trail _,
    fun bad rest h1 h2 h3 => subNonKeep_run h1 h2 h3⟩
  · show ((stripUnd (subNonKeep name.data)).take 80).length ≤ 80
    rw [List.length_take]
    exact min_le_left _ _
  · intro c hc
    have hc2 : c ∈ (stripUnd (subNonKeep name.data)).take 80 := hc
    have hc3 : c ∈ stripUnd (subNonKeep name.data) :=
      (List.take_sublist _ _).subset hc2
    have hc4 : c ∈ subNonKeep name.data := by
      simp only [stripUnd] at hc3
      rw [List.mem_reverse] at hc3
      have h5 := (List.dropWhile_sublist isUnd).subset hc3
      rw [List.mem_reverse] at h5
      exact (List.dropWhile_sublist isUnd).subset h5
    exact subAux_chars name.data false c hc4
  · show ((stripUnd (subNonKeep name.data)).take 80).head? ≠ some '_'
    rw [head?_take]
    exact stripUnd_no_lead _

/-- C9 counterexample: 79 word characters, one character outside the
class, then one more word character.  The separator lands at position 80;
the strip runs before the truncation, so the returned token ends with the
separator, contradicting the claim that the result has no trailing
separator. -/
theorem safe_name_trailing_sep_cex :
    (safe_name (String.mk (List.replicate 79 'a' ++ ['?', 'x']))).data.getLast?
      = some '_' := by decide

theorem safe_name_spec_witness :
    (safe_name "a b").length ≤ 80 ∧
    subNonKeep ([' '] ++ ['b']) = '_' :: subNonKeep ['b'] :=
  ⟨(safe_name_spec "a b").1,
   (safe_name_spec "a b").2.2.2.2 [' '] ['b'] (by decide) (by decide) (by decide)⟩

/-- C5: for an entry with no usable cache, an available download, and an
extraction of length exactly `min_len`, the entry is accepted as `"pdf"`;
at length `min_len - 1` it is rejected outright when the fallback is
disabled, and when the fallback is enabled the outcome is exactly the
fallback's decision chain (accept as `"ocr"` iff the recognized text
reaches `min_len`; a fallback error yields empty text, which is then
rejected by the same threshold). -/
theorem threshold_spec (env : Env) (cfg : Config) (fs : FS) (r : Row)
    (d text : String)
    (hcache : fs.txts (txtPath cfg.out r) = none)
    (hpdf : fs.pdfs (pdfPath cfg.out r) = none)
    (hnet : env.network r.download_url = some d)
    (hex : env.pdfminer d = some text) :
    (text.length = cfg.min_len →
      (entryStep env cfg fs r).2 =
        some (mkRec r (txtPath cfg.out r) "pdf" cfg.min_len)) ∧
    (text.length + 1 = cfg.min_len → cfg.use_ocr = false →
      (entryStep env cfg fs r).2 = none) ∧
    (text.length + 1 = cfg.min_len → cfg.use_ocr = true →
      (entryStep env cfg fs r).2 =
        (match ocr_pdf env d with
        | Except.ok t =>
          if cfg.min_len ≤ t.length then
            some (mkRec r (txtPath cfg.out r) "ocr" t.length)
          else none
        | Except.error _ => none)) := by
  have hprobe : cacheProbe cfg fs r = none := by
    simp [cacheProbe, hcache]
  have hdl : download_pdf env fs r.download_url (pdfPath cfg.out r) =
      some (writePdf fs (pdfPath cfg.out r) d) := by
    simp [download_pdf, hpdf, hnet]
  have hcontent :
      ((writePdf fs (pdfPath cfg.out r) d).pdfs (pdfPath cfg.out r)).getD ""
        = d := by
    simp [writePdf, setF]
  refine ⟨?_, ?_, ?_⟩
  · intro h
    have hlt : ¬ (text.length < cfg.min_len) := by omega
    have hle : cfg.min_len ≤ text.length := by omega
    simp only [entryStep, hprobe, entryFetch, hdl, hcontent, computeText,
      extract_text_pdf, hex, hlt, Bool.false_and]
    simp [hle, mkRec, h]
  · intro h hocr
    have hgt : ¬ (cfg.min_len ≤ text.length) := by omega
    simp only [entryStep, hprobe, entryFetch, hdl, hcontent, computeText,
      extract_text_pdf, hex, hocr, Bool.and_false]
    simp [hgt]
  · intro h hocr
    have hlt : text.length < cfg.min_len := by omega
    have hmin : cfg.min_len ≠ 0 := by omega
    simp only [entryStep, hprobe, entryFetch, hdl, hcontent, computeText,
      extract_text_pdf, hex, hocr, hlt, Bool.and_true]
    cases hocrres : ocr_pdf env d with
    | ok t =>
      by_cases ht : cfg.min_len ≤ t.length
      · simp [hocrres, ht, mkRec]
      · simp [hocrres, ht]
    | error e =>
      simp [hocrres, hmin]

theorem download_pdf_cases (env : Env) (fs : FS) (url dest : String) :
    (0 < ((fs.pdfs dest).getD "").length ∧ download_pdf env fs url dest = some fs) ∨
    (¬ 0 < ((fs.pdfs dest).getD "").length ∧ env.network url = none ∧
      download_pdf env fs url dest = none) ∨
    (∃ data, ¬ 0 < ((fs.pdfs dest).getD "").length ∧
      env.network url = some data ∧
      download_pdf env fs url dest = some (writePdf fs dest data)) := by
  by_cases h : 0 < ((fs.pdfs dest).getD "").length
  · left
    exact ⟨h, by simp [download_pdf, h]⟩
  · cases hn : env.network url with
    | none => exact Or.inr (Or.inl ⟨h, rfl, by simp [download_pdf, h, hn]⟩)
    | some data =>
      exact Or.inr (Or.inr ⟨data, h, rfl, by simp [download_pdf, h, hn]⟩)

theorem entryFetch_some (env : Env) (cfg : Config) (fs : FS) (r : Row) (fs1 : FS)
    (hdl : download_pdf env fs r.download_url (pdfPath cfg.out r) = some fs1) :
    (cfg.min_len ≤ (computeText env cfg
        ((fs1.pdfs (pdfPath cfg.out r)).getD "")).1.length ∧
      entryFetch env cfg fs r =
        (writeTxt fs1 (txtPath cfg.out r)
            (computeText env cfg ((fs1.pdfs (pdfPath cfg.out r)).getD "")).1,
         some (mkRec r (txtPath cfg.out r)
            (computeText env cfg ((fs1.pdfs (pdfPath cfg.out r)).getD "")).2
            (computeText env cfg
              ((fs1.pdfs (pdfPath cfg.out r)).getD "")).1.length))) ∨
    ((computeText env cfg
        ((fs1.pdfs (pdfPath cfg.out r)).getD "")).1.length < cfg.min_len ∧
      entryFetch env cfg fs r = (fs1, none)) := by
  by_cases hacc : cfg.min_len ≤ (computeText env cfg
      ((fs1.pdfs (pdfPath cfg.out r)).getD "")).1.length
  · exact Or.inl ⟨hacc, by simp [entryFetch, hdl, hacc]⟩
  · exact Or.inr ⟨by omega, by simp [entryFetch, hdl, hacc]⟩

/-- Exhaustive case analysis of one per-entry iteration: cache hit,
download failure, reject, or accept-and-write. -/
theorem entryStep_cases (env : Env) (cfg : Config) (fs : FS) (r : Row) :
    (∃ cached, fs.txts (txtPath cfg.out r) = some cached ∧
      cfg.min_len ≤ cached.length ∧
      entryStep env cfg fs r =
        (fs, some (mkRec r (txtPath cfg.out r) "cached" cached.length))) ∨
    (cacheProbe cfg fs r = none ∧
      download_pdf env fs r.download_url (pdfPath cfg.out r) = none ∧
      entryStep env cfg fs r = (fs, none)) ∨
    (∃ fs1, cacheProbe cfg fs r = none ∧
      download_pdf env fs r.download_url (pdfPath cfg.out r) = some fs1 ∧
      (computeText env cfg
        ((fs1.pdfs (pdfPath cfg.out r)).getD "")).1.length < cfg.min_len ∧
      entryStep env cfg fs r = (fs1, none)) ∨
    (∃ fs1, cacheProbe cfg fs r = none ∧
      download_pdf env fs r.download_url (pdfPath cfg.out r) = some fs1 ∧
      cfg.min_len ≤ (computeText env cfg
        ((fs1.pdfs (pdfPath cfg.out r)).getD "")).1.length ∧
      entryStep env cfg fs r =
        (writeTxt fs1 (txtPath cfg.out r)
            (computeText env cfg ((fs1.pdfs (pdfPath cfg.out r)).getD "")).1,
         some (mkRec r (txtPath cfg.out r)
            (computeText env cfg ((fs1.pdfs (pdfPath cfg.out r)).getD "")).2
            (computeText env cfg
              ((fs1.pdfs (pdfPath cfg.out r)).getD "")).1.length))) := by
  have main : cacheProbe cfg fs r = none →
      (cacheProbe cfg fs r = none ∧
        download_pdf env fs r.download_url (pdfPath cfg.out r) = none ∧
        entryStep env cfg fs r = (fs, none)) ∨
      (∃ fs1, cacheProbe cfg fs r = none ∧
        download_pdf env fs r.download_url (pdfPath cfg.out r) = some fs1 ∧
        (computeText env cfg
          ((fs1.pdfs (pdfPath cfg.out r)).getD "")).1.length < cfg.min_len ∧
        entryStep env cfg fs r = (fs1, none)) ∨
      (∃ fs1, cacheProbe cfg fs r = none ∧
        download_pdf env fs r.download_url (pdfPath cfg.out r) = some fs1 ∧
        cfg.min_len ≤ (computeText env cfg
          ((fs1.pdfs (pdfPath cfg.out r)).getD "")).1.length ∧
        entryStep env cfg fs r =
          (writeTxt fs1 (txtPath cfg.out r)
              (computeText env cfg ((fs1.pdfs (pdfPath cfg.out r)).getD "")).1,
           some (mkRec r (txtPath cfg.out r)
              (computeText env cfg ((fs1.pdfs (pdfPath cfg.out r)).getD "")).2
              (computeText env cfg
                ((fs1.pdfs (pdfPath cfg.out r)).getD "")).1.length))) := by
    intro hcp
    rcases download_pdf_cases env fs r.download_url (pdfPath cfg.out r) with
      ⟨hpos, hdl⟩ | ⟨hpos, hnet, hdl⟩ | ⟨data, hpos, hnet, hdl⟩
    · rcases entryFetch_some env cfg fs r fs hdl with ⟨hacc, hef⟩ | ⟨hrej, hef⟩
      · exact Or.inr (Or.inr ⟨fs, hcp, hdl, hacc, by simp [entryStep, hcp, hef]⟩)
      · exact Or.inr (Or.inl ⟨fs, hcp, hdl, hrej, by simp [entryStep, hcp, hef]⟩)
    · exact Or.inl ⟨hcp, hdl, by simp [entryStep, hcp, entryFetch, hdl]⟩
    · rcases entryFetch_some env cfg fs r _ hdl with ⟨hacc, hef⟩ | ⟨hrej, hef⟩
      · exact Or.inr (Or.inr ⟨_, hcp, hdl, hacc, by simp [entryStep, hcp, hef]⟩)
      · exact Or.inr (Or.inl ⟨_, hcp, hdl, hrej, by simp [entryStep, hcp, hef]⟩)
  cases htx : fs.txts (txtPath cfg.out r) with
  | some cached =>
    by_cases hlen : cfg.min_len ≤ cached.length
    · exact Or.inl ⟨cached, rfl, hlen, by simp [entryStep, cacheProbe, htx, hlen]⟩
    · rcases main (by simp [cacheProbe, htx, hlen]) with h | h | h
      · exact Or.inr (Or.inl h)
      · exact Or.inr (Or.inr (Or.inl h))
      · exact Or.inr (Or.inr (Or.inr h))
  | none =>
    rcases main (by simp [cacheProbe, htx]) with h | h | h
    · exact Or.inr (Or.inl h)
    · exact Or.inr (Or.inr (Or.inl h))
    · exact Or.inr (Or.inr (Or.inr h))

theorem txtPath_eq (o : String) (r : Row) :
    txtPath o r = "exams/texts_" ++ o ++ "/" ++ toString r.year ++ "_" ++
      safe_name r.school ++ ".txt" := by
  simp [txtPath, stem, String.append_assoc]

theorem threshold_spec_witness :
    (entryStep cexEnv cexCfg emptyFS row1).2 =
      some (mkRec row1 (txtPath "o" row1) "pdf" 1) ∧
    (entryStep cexEnv ⟨"o", none, 0, 2, false⟩ emptyFS row1).2 = none ∧
    (entryStep cexEnv ⟨"o", none, 0, 2, true⟩ emptyFS row1).2 =
      (match ocr_pdf cexEnv "P" with
      | Except.ok t => if 2 ≤ t.length then
          some (mkRec row1 (txtPath "o" row1) "ocr" t.length) else none
      | Except.error _ => none) :=
  ⟨(threshold_spec cexEnv cexCfg emptyFS row1 "P" "X"
      rfl rfl rfl rfl).1 (by decide),
   (threshold_spec cexEnv ⟨"o", none, 0, 2, false⟩ emptyFS row1 "P" "X"
      rfl rfl rfl rfl).2.1 (by decide) rfl,
   (threshold_spec cexEnv ⟨"o", none, 0, 2, true⟩ emptyFS row1 "P" "X"
      rfl rfl rfl rfl).2.2 (by decide) rfl⟩

/-- C6 (amended): every record an entry produces names the artifact path
`texts_{out}/{year}_{sanitized school}.txt` -- the source uses the `.txt`
extension, not `.text` -- and after the entry's step the text directory
holds, at that path, a text of accepted length. -/
theorem artifact_path_spec (env : Env) (cfg : Config) (fs : FS) (r : Row)
    (u : Rec) (h : (entryStep env cfg fs r).2 = some u) :
    u.text_file = "exams/texts_" ++ cfg.out ++ "/" ++ toString r.year ++ "_" ++
      safe_name r.school ++ ".txt" ∧
    ∃ c : String, (entryStep env cfg fs r).1.txts u.text_file = some c ∧
      cfg.min_len ≤ c.length := by
  rcases entryStep_cases env cfg fs r with
    ⟨cached, htx, hlen, he⟩ | ⟨_, _, he⟩ | ⟨fs1, _, _, _, he⟩ |
    ⟨fs1, hcp, hdl, hacc, he⟩
  · rw [he] at h ⊢
    simp only [Option.some.injEq] at h
    rw [← h]
    refine ⟨by simpa [mkRec] using txtPath_eq cfg.out r, cached, ?_, hlen⟩
    exact htx
  · rw [he] at h
    simp at h
  · rw [he] at h
    simp at h
  · rw [he] at h ⊢
    simp only [Option.some.injEq] at h
    rw [← h]
    refine ⟨by simpa [mkRec] using txtPath_eq cfg.out r, _, ?_, hacc⟩
    simp [mkRec, writeTxt, setF]

/-- C6 counterexample: the accepted sample entry records and writes its
artifact at `exams/texts_o/2021_A.txt`; nothing exists at the
`exams/texts_o/2021_A.text` path the claim names. -/
theorem artifact_path_cex :
    (entryStep cexEnv cexCfg emptyFS row1).2 =
      some (mkRec row1 "exams/texts_o/2021_A.txt" "pdf" 1) ∧
    (entryStep cexEnv cexCfg emptyFS row1).1.txts "exams/texts_o/2021_A.txt"
      = some "X" ∧
    (entryStep cexEnv cexCfg emptyFS row1).1.txts "exams/texts_o/2021_A.text"
      = none := by
  refine ⟨?_, ?_, ?_⟩ <;> decide

theorem artifact_path_spec_witness :
    (mkRec row1 "exams/texts_o/2021_A.txt" "pdf" 1).text_file =
      "exams/texts_" ++ cexCfg.out ++ "/" ++ toString row1.year ++ "_" ++
        safe_name row1.school ++ ".txt" :=
  (artifact_path_spec cexEnv cexCfg emptyFS row1
    (mkRec row1 "exams/texts_o/2021_A.txt" "pdf" 1) (by decide)).1

/-- C7: when the rasterizer or the recognition binary is missing,
`ocr_pdf` fails with `ToolUnavailable` (nothing inside `ocr_pdf` catches
it); the entry-level handler catches it, normalizes the entry's text to
the empty string, and the entry is then evaluated against the acceptance
threshold -- rejecting it, since in this branch the threshold exceeds the
extraction length and is therefore positive. -/
theorem tool_unavailable_spec (env : Env) (cfg : Config) (fs : FS) (r : Row)
    (d text : String)
    (htool : env.pdftoppm = false ∨ env.tesseract = false)
    (hcache : fs.txts (txtPath cfg.out r) = none)
    (hpdf : fs.pdfs (pdfPath cfg.out r) = none)
    (hnet : env.network r.download_url = some d)
    (hex : env.pdfminer d = some text)
    (hshort : text.length < cfg.min_len)
    (hocr : cfg.use_ocr = true) :
    ocr_pdf env d = Except.error OcrErr.toolUnavailable ∧
    computeText env cfg d = ("", "pdf") ∧
    (entryStep env cfg fs r).2 =
      (if cfg.min_len ≤ ("" : String).length then
        some (mkRec r (txtPath cfg.out r) "pdf" ("" : String).length)
      else none) ∧
    (entryStep env cfg fs r).2 = none := by
  have ho : ocr_pdf env d = Except.error OcrErr.toolUnavailable := by
    rcases htool with h | h <;> simp [ocr_pdf, h]
  have hct : computeText env cfg d = ("", "pdf") := by
    simp [computeText, extract_text_pdf, hex, hshort, hocr, ho]
  have hmin : ¬ (cfg.min_len ≤ ("" : String).length) := by
    have h0 : ("" : String).length = 0 := rfl
    rw [h0]
    omega
  have hprobe : cacheProbe cfg fs r = none := by
    simp [cacheProbe, hcache]
  have hdl : download_pdf env fs r.download_url (pdfPath cfg.out r) =
      some (writePdf fs (pdfPath cfg.out r) d) := by
    simp [download_pdf, hpdf, hnet]
  have hcontent :
      ((writePdf fs (pdfPath cfg.out r) d).pdfs (pdfPath cfg.out r)).getD ""
        = d := by
    simp [writePdf, setF]
  have hmin0 : cfg.min_len ≠ 0 := by omega
  refine ⟨ho, hct, ?_, ?_⟩
  · simp only [entryStep, hprobe, entryFetch, hdl, hcontent, hct]
    simp [hmin0]
  · simp only [entryStep, hprobe, entryFetch, hdl, hcontent, hct]
    simp [hmin0]

theorem tool_unavailable_witness :
    ocr_pdf cexEnv "P" = Except.error OcrErr.toolUnavailable ∧
    (entryStep cexEnv ⟨"o", none, 0, 2, true⟩ emptyFS row1).2 = none :=
  ⟨(tool_unavailable_spec cexEnv ⟨"o", none, 0, 2, true⟩ emptyFS row1 "P" "X"
      (Or.inl rfl) rfl rfl rfl rfl (by decide) rfl).1,
   (tool_unavailable_spec cexEnv ⟨"o", none, 0, 2, true⟩ emptyFS row1 "P" "X"
      (Or.inl rfl) rfl rfl rfl rfl (by decide) rfl).2.2.2⟩

theorem string_length_pos {s : String} (h : s ≠ "") : 0 < s.length := by
  have hd : s.data ≠ [] := by
    intro hnil
    exact h (String.ext (by simp [hnil]))
  exact List.length_pos.mpr hd

theorem stem_of_txtPath {o : String} {e r : Row}
    (h : txtPath o e = txtPath o r) : stem e = stem r := by
  have hd := congrArg String.data h
  simp only [txtPath, String.data_append] at hd
  have h1 := List.append_cancel_right hd
  exact String.ext (List.append_cancel_left h1)

theorem stem_of_pdfPath {o : String} {e r : Row}
    (h : pdfPath o e = pdfPath o r) : stem e = stem r := by
  have hd := congrArg String.data h
  simp only [pdfPath, String.data_append] at hd
  have h1 := List.append_cancel_right hd
  exact String.ext (List.append_cancel_left h1)

theorem txtPath_congr {o : String} {e r : Row} (h : stem e = stem r) :
    txtPath o e = txtPath o r := by
  simp [txtPath, h]

theorem pdfPath_congr {o : String} {e r : Row} (h : stem e = stem r) :
    pdfPath o e = pdfPath o r := by
  simp [pdfPath, h]

theorem writePdf_pdfs_self (fs : FS) (p d : String) :
    (writePdf fs p d).pdfs p = some d := by
  simp [writePdf, setF]

theorem writePdf_pdfs_other (fs : FS) (p d q : String) (h : q ≠ p) :
    (writePdf fs p d).pdfs q = fs.pdfs q := by
  simp [writePdf, setF, h]

theorem writePdf_txts (fs : FS) (p d : String) :
    (writePdf fs p d).txts = fs.txts := rfl

theorem writeTxt_txts_self (fs : FS) (p t : String) :
    (writeTxt fs p t).txts p = some t := by
  simp [writeTxt, setF]

theorem writeTxt_txts_other (fs : FS) (p t q : String) (h : q ≠ p) :
    (writeTxt fs p t).txts q = fs.txts q := by
  simp [writeTxt, setF, h]

theorem writeTxt_pdfs (fs : FS) (p t : String) :
    (writeTxt fs p t).pdfs = fs.pdfs := rfl

theorem writePdf_id {fs : FS} {p d : String} (h : fs.pdfs p = some d) :
    writePdf fs p d = fs := by
  cases fs with
  | mk pd tx =>
    simp only [writePdf]
    congr 1
    funext q
    by_cases hq : q = p
    · subst hq
      simpa [setF] using h.symm
    · simp [setF, hq]

theorem download_pdf_skip {env : Env} {fs : FS} {url dest d : String}
    (h : fs.pdfs dest = some d) (hne : d ≠ "") :
    download_pdf env fs url dest = some fs := by
  have : 0 < ((fs.pdfs dest).getD "").length := by
    rw [h]
    exact string_length_pos hne
  simp [download_pdf, this]

theorem download_pdf_txts {env : Env} {fs fs1 : FS} {url dest : String}
    (h : download_pdf env fs url dest = some fs1) : fs1.txts = fs.txts := by
  rcases download_pdf_cases env fs url dest with
    ⟨_, hd⟩ | ⟨_, _, hd⟩ | ⟨data, _, _, hd⟩
  · rw [hd] at h
    injection h with h2
    rw [← h2]
  · rw [hd] at h
    cases h
  · rw [hd] at h
    injection h with h2
    rw [← h2]
    rfl

theorem download_pdf_pdfs_other {env : Env} {fs fs1 : FS} {url dest q : String}
    (h : download_pdf env fs url dest = some fs1) (hq : q ≠ dest) :
    fs1.pdfs q = fs.pdfs q := by
  rcases download_pdf_cases env fs url dest with
    ⟨_, hd⟩ | ⟨_, _, hd⟩ | ⟨data, _, _, hd⟩
  · rw [hd] at h
    injection h with h2
    rw [← h2]
  · rw [hd] at h
    cases h
  · rw [hd] at h
    injection h with h2
    rw [← h2]
    exact writePdf_pdfs_other fs dest data q hq

theorem entryStep_txts_other (env : Env) (cfg : Config) (fs : FS) (r : Row)
    (q : String) (hq : q ≠ txtPath cfg.out r) :
    (entryStep env cfg fs r).1.txts q = fs.txts q := by
  rcases entryStep_cases env cfg fs r with
    ⟨cached, htx, hlen, he⟩ | ⟨_, _, he⟩ | ⟨fs1, _, hdl, _, he⟩ |
    ⟨fs1, _, hdl, _, he⟩
  · rw [he]
  · rw [he]
  · rw [he]
    show fs1.txts q = fs.txts q
    rw [download_pdf_txts hdl]
  · rw [he]
    show (writeTxt fs1 (txtPath cfg.out r) _).txts q = fs.txts q
    rw [writeTxt_txts_other _ _ _ _ hq, download_pdf_txts hdl]

theorem entryStep_pdfs_other (env : Env) (cfg : Config) (fs : FS) (r : Row)
    (q : String) (hq : q ≠ pdfPath cfg.out r) :
    (entryStep env cfg fs r).1.pdfs q = fs.pdfs q := by
  rcases entryStep_cases env cfg fs r with
    ⟨cached, htx, hlen, he⟩ | ⟨_, _, he⟩ | ⟨fs1, _, hdl, _, he⟩ |
    ⟨fs1, _, hdl, _, he⟩
  · rw [he]
  · rw [he]
  · rw [he]
    show fs1.pdfs q = fs.pdfs q
    exact download_pdf_pdfs_other hdl hq
  · rw [he]
    show (writeTxt fs1 (txtPath cfg.out r) _).pdfs q = fs.pdfs q
    rw [writeTxt_pdfs]
    exact download_pdf_pdfs_other hdl hq

theorem entryStep_txts_keep (env : Env) (cfg : Config) (fs : FS) (r : Row)
    (p : String) (c : String) (hc : fs.txts p = some c)
    (hlen : cfg.min_len ≤ c.length) :
    ∃ c2, (entryStep env cfg fs r).1.txts p = some c2 ∧
      cfg.min_len ≤ c2.length := by
  by_cases hp : p = txtPath cfg.out r
  · subst hp
    rcases entryStep_cases env cfg fs r with
      ⟨cached, htx, hlen2, he⟩ | ⟨_, _, he⟩ | ⟨fs1, _, hdl, _, he⟩ |
      ⟨fs1, _, hdl, hacc, he⟩
    · rw [he]
      exact ⟨c, hc, hlen⟩
    · rw [he]
      exact ⟨c, hc, hlen⟩
    · rw [he]
      refine ⟨c, ?_, hlen⟩
      show fs1.txts _ = some c
      rw [download_pdf_txts hdl]
      exact hc
    · rw [he]
      exact ⟨_, writeTxt_txts_self fs1 _ _, hacc⟩
  · rw [entryStep_txts_other env cfg fs r p hp]
    exact ⟨c, hc, hlen⟩

theorem entryStep_pdfs_frozen (env : Env) (cfg : Config) (fs : FS) (r : Row)
    (p d : String) (hd : fs.pdfs p = some d) (hne : d ≠ "") :
    (entryStep env cfg fs r).1.pdfs p = some d := by
  by_cases hp : p = pdfPath cfg.out r
  · subst hp
    have hdl2 : download_pdf env fs r.download_url (pdfPath cfg.out r) =
        some fs := download_pdf_skip hd hne
    rcases entryStep_cases env cfg fs r with
      ⟨cached, htx, hlen, he⟩ | ⟨_, hdl, he⟩ | ⟨fs1, _, hdl, _, he⟩ |
      ⟨fs1, _, hdl, _, he⟩
    · rw [he]
      exact hd
    · rw [he]
      exact hd
    · rw [hdl2] at hdl
      injection hdl with hfs
      rw [he]
      show fs1.pdfs _ = some d
      rw [← hfs]
      exact hd
    · rw [hdl2] at hdl
      injection hdl with hfs
      rw [he]
      show (writeTxt fs1 (txtPath cfg.out r) _).pdfs _ = some d
      rw [writeTxt_pdfs, ← hfs]
      exact hd
  · rw [entryStep_pdfs_other env cfg fs r p hp]
    exact hd

/-- After an entry's own step, the state is settled for that entry. -/
theorem GOOD_established (env : Env) (cfg : Config) (fs : FS) (r : Row) :
    GOOD env cfg (entryStep env cfg fs r).1 r := by
  rcases entryStep_cases env cfg fs r with
    ⟨cached, htx, hlen, he⟩ | ⟨hcp, hdl, he⟩ | ⟨fs1, hcp, hdl, hrej, he⟩ |
    ⟨fs1, hcp, hdl, hacc, he⟩
  · rw [he]
    exact Or.inl ⟨cached, htx, hlen⟩
  · rw [he]
    rcases download_pdf_cases env fs r.download_url (pdfPath cfg.out r) with
      ⟨hpos, hd2⟩ | ⟨hpos, hnet, hd2⟩ | ⟨data, hpos, hnet, hd2⟩
    · rw [hd2] at hdl
      cases hdl
    · cases hpd : fs.pdfs (pdfPath cfg.out r) with
      | none => exact Or.inr (Or.inl ⟨hpd, hnet⟩)
      | some d =>
        have hd0 : d = "" := by
          by_contra hne
          rw [hpd] at hpos
          exact hpos (by simpa using string_length_pos hne)
        subst hd0
        exact Or.inr (Or.inr (Or.inl ⟨hpd, hnet⟩))
    · rw [hd2] at hdl
      cases hdl
  · rw [he]
    show GOOD env cfg fs1 r
    rcases download_pdf_cases env fs r.download_url (pdfPath cfg.out r) with
      ⟨hpos, hd2⟩ | ⟨hpos, hnet, hd2⟩ | ⟨data, hpos, hnet, hd2⟩
    · rw [hd2] at hdl
      injection hdl with hfs
      subst hfs
      cases hpd : fs.pdfs (pdfPath cfg.out r) with
      | none =>
        rw [hpd] at hpos
        simp at hpos
      | some d =>
        have hne : d ≠ "" := by
          intro h0
          rw [hpd, h0] at hpos
          simp at hpos
        refine Or.inr (Or.inr (Or.inr (Or.inr ⟨d, hpd, hne, ?_⟩)))
        rw [hpd] at hrej
        simpa using hrej
    · rw [hd2] at hdl
      cases hdl
    · rw [hd2] at hdl
      injection hdl with hfs
      rw [← hfs] at hrej ⊢
      rw [writePdf_pdfs_self] at hrej
      simp only [Option.getD_some] at hrej
      by_cases hdata : data = ""
      · subst hdata
        refine Or.inr (Or.inr (Or.inr (Or.inl ⟨?_, hnet, hrej⟩)))
        rw [writePdf_pdfs_self]
      · refine Or.inr (Or.inr (Or.inr (Or.inr ⟨data, ?_, hdata, hrej⟩)))
        rw [writePdf_pdfs_self]
  · rw [he]
    exact Or.inl ⟨_, writeTxt_txts_self fs1 _ _, hacc⟩

/-- A settled entry stays settled while any other entry (or itself) is
processed: a different stem never touches its paths; the same stem can
only re-write the same decision (writes are long texts, retrieved
documents freeze, and `computeText` depends only on document content). -/
theorem GOOD_preserved (env : Env) (cfg : Config) {fs : FS} {r : Row} (e : Row)
    (hg : GOOD env cfg fs r) : GOOD env cfg (entryStep env cfg fs e).1 r := by
  by_cases hstem : stem e = stem r
  · have htp : txtPath cfg.out e = txtPath cfg.out r := txtPath_congr hstem
    have hpp : pdfPath cfg.out e = pdfPath cfg.out r := pdfPath_congr hstem
    rcases hg with ⟨c, hc, hl⟩ | hg'
    · exact Or.inl (entryStep_txts_keep env cfg fs e _ c hc hl)
    rcases entryStep_cases env cfg fs e with
      ⟨cached, htx, hlen, he⟩ | ⟨hcp, hdl, he⟩ | ⟨fs1, hcp, hdl, hrej, he⟩ |
      ⟨fs1, hcp, hdl, hacc, he⟩
    · rw [he]
      exact Or.inr hg'
    · rw [he]
      exact Or.inr hg'
    · rw [he]
      show GOOD env cfg fs1 r
      rcases download_pdf_cases env fs e.download_url (pdfPath cfg.out e) with
        ⟨hpos, hd2⟩ | ⟨hpos, hnet, hd2⟩ | ⟨data, hpos, hnet, hd2⟩
      · rw [hd2] at hdl
        injection hdl with hfs
        subst hfs
        exact Or.inr hg'
      · rw [hd2] at hdl
        cases hdl
      · rw [hd2] at hdl
        injection hdl with hfs
        rw [← hfs] at hrej ⊢
        rw [writePdf_pdfs_self] at hrej
        simp only [Option.getD_some] at hrej
        have hnew : (writePdf fs (pdfPath cfg.out e) data).pdfs
            (pdfPath cfg.out r) = some data := by
          rw [← hpp]
          exact writePdf_pdfs_self fs _ data
        by_cases hdata : data = ""
        · subst hdata
          rcases hg' with ⟨h1, h2⟩ | ⟨h1, h2⟩ | ⟨h1, h2, h3⟩ | ⟨d, h1, h2, h3⟩
          · exact Or.inr (Or.inr (Or.inl ⟨hnew, h2⟩))
          · exact Or.inr (Or.inr (Or.inl ⟨hnew, h2⟩))
          · exact Or.inr (Or.inr (Or.inr (Or.inl ⟨hnew, h2, h3⟩)))
          · exfalso
            rw [hpp, h1] at hpos
            exact hpos (by simpa using string_length_pos h2)
        · exact Or.inr (Or.inr (Or.inr (Or.inr ⟨data, hnew, hdata, hrej⟩)))
    · rw [he]
      refine Or.inl ⟨(computeText env cfg
        ((fs1.pdfs (pdfPath cfg.out e)).getD "")).1, ?_, hacc⟩
      show (writeTxt fs1 (txtPath cfg.out e) _).txts (txtPath cfg.out r) = _
      rw [← htp]
      exact writeTxt_txts_self fs1 _ _
  · have htp : txtPath cfg.out r ≠ txtPath cfg.out e := fun hh =>
      hstem (stem_of_txtPath hh).symm
    have hpp : pdfPath cfg.out r ≠ pdfPath cfg.out e := fun hh =>
      hstem (stem_of_pdfPath hh).symm
    rcases hg with ⟨c, hc, hl⟩ | ⟨h1, h2⟩ | ⟨h1, h2⟩ | ⟨h1, h2, h3⟩ |
      ⟨d, h1, h2, h3⟩
    · refine Or.inl ⟨c, ?_, hl⟩
      rw [entryStep_txts_other env cfg fs e _ htp]
      exact hc
    · refine Or.inr (Or.inl ⟨?_, h2⟩)
      rw [entryStep_pdfs_other env cfg fs e _ hpp]
      exact h1
    · refine Or.inr (Or.inr (Or.inl ⟨?_, h2⟩))
      rw [entryStep_pdfs_other env cfg fs e _ hpp]
      exact h1
    · refine Or.inr (Or.inr (Or.inr (Or.inl ⟨?_, h2, h3⟩)))
      rw [entryStep_pdfs_other env cfg fs e _ hpp]
      exact h1
    · refine Or.inr (Or.inr (Or.inr (Or.inr ⟨d, ?_, h2, h3⟩)))
      rw [entryStep_pdfs_other env cfg fs e _ hpp]
      exact h1

/-- A settled entry's step leaves the filesystem untouched, and any record
it still produces comes from the cache probe (`method = "cached"`). -/
theorem stable_of_GOOD (env : Env) (cfg : Config) {fs : FS} {r : Row}
    (hg : GOOD env cfg fs r) :
    (entryStep env cfg fs r).1 = fs ∧
    ∀ u, (entryStep env cfg fs r).2 = some u → u.method = "cached" := by
  rcases hg with ⟨c, hc, hl⟩ | ⟨h1, h2⟩ | ⟨h1, h2⟩ | ⟨h1, h2, h3⟩ |
    ⟨d, h1, h2, h3⟩
  · have he : entryStep env cfg fs r =
        (fs, some (mkRec r (txtPath cfg.out r) "cached" c.length)) := by
      simp [entryStep, cacheProbe, hc, hl]
    rw [he]
    refine ⟨rfl, ?_⟩
    intro u hu
    injection hu with hu
    rw [← hu]
    rfl
  · rcases entryStep_cases env cfg fs r with
      ⟨cached, htx, hlen, he⟩ | ⟨hcp, hdl, he⟩ | ⟨fs1, hcp, hdl, hrej, he⟩ |
      ⟨fs1, hcp, hdl, hacc, he⟩
    · rw [he]
      refine ⟨rfl, ?_⟩
      intro u hu
      injection hu with hu
      rw [← hu]
      rfl
    · rw [he]
      exact ⟨rfl, fun u hu => by cases hu⟩
    · exfalso
      rcases download_pdf_cases env fs r.download_url (pdfPath cfg.out r) with
        ⟨hpos, hd2⟩ | ⟨hpos, hnet, hd2⟩ | ⟨data, hpos, hnet, hd2⟩
      · rw [h1] at hpos
        simp at hpos
      · rw [hd2] at hdl
        cases hdl
      · rw [hnet] at h2
        cases h2
    · exfalso
      rcases download_pdf_cases env fs r.download_url (pdfPath cfg.out r) with
        ⟨hpos, hd2⟩ | ⟨hpos, hnet, hd2⟩ | ⟨data, hpos, hnet, hd2⟩
      · rw [h1] at hpos
        simp at hpos
      · rw [hd2] at hdl
        cases hdl
      · rw [hnet] at h2
        cases h2
  · rcases entryStep_cases env cfg fs r with
      ⟨cached, htx, hlen, he⟩ | ⟨hcp, hdl, he⟩ | ⟨fs1, hcp, hdl, hrej, he⟩ |
      ⟨fs1, hcp, hdl, hacc, he⟩
    · rw [he]
      refine ⟨rfl, ?_⟩
      intro u hu
      injection hu with hu
      rw [← hu]
      rfl
    · rw [he]
      exact ⟨rfl, fun u hu => by cases hu⟩
    · exfalso
      rcases download_pdf_cases env fs r.download_url (pdfPath cfg.out r) with
        ⟨hpos, hd2⟩ | ⟨hpos, hnet, hd2⟩ | ⟨data, hpos, hnet, hd2⟩
      · rw [h1] at hpos
        simp at hpos
      · rw [hd2] at hdl
        cases hdl
      · rw [hnet] at h2
        cases h2
    · exfalso
      rcases download_pdf_cases env fs r.download_url (pdfPath cfg.out r) with
        ⟨hpos, hd2⟩ | ⟨hpos, hnet, hd2⟩ | ⟨data, hpos, hnet, hd2⟩
      · rw [h1] at hpos
        simp at hpos
      · rw [hd2] at hdl
        cases hdl
      · rw [hnet] at h2
        cases h2
  · rcases entryStep_cases env cfg fs r with
      ⟨cached, htx, hlen, he⟩ | ⟨hcp, hdl, he⟩ | ⟨fs1, hcp, hdl, hrej, he⟩ |
      ⟨fs1, hcp, hdl, hacc, he⟩
    · rw [he]
      refine ⟨rfl, ?_⟩
      intro u hu
      injection hu with hu
      rw [← hu]
      rfl
    · rw [he]
      exact ⟨rfl, fun u hu => by cases hu⟩
    · rcases download_pdf_cases env fs r.download_url (pdfPath cfg.out r) with
        ⟨hpos, hd2⟩ | ⟨hpos, hnet, hd2⟩ | ⟨data, hpos, hnet, hd2⟩
      · exfalso
        rw [h1] at hpos
        simp at hpos
      · exfalso
        rw [hd2] at hdl
        cases hdl
      · rw [hnet] at h2
        injection h2 with h2d
        rw [hd2] at hdl
        injection hdl with hfs
        have hid : writePdf fs (pdfPath cfg.out r) data = fs := by
          rw [h2d]
          exact writePdf_id h1
        rw [hid] at hfs
        rw [he, ← hfs]
        exact ⟨rfl, fun u hu => by cases hu⟩
    · exfalso
      rcases download_pdf_cases env fs r.download_url (pdfPath cfg.out r) with
        ⟨hpos, hd2⟩ | ⟨hpos, hnet, hd2⟩ | ⟨data, hpos, hnet, hd2⟩
      · rw [h1] at hpos
        simp at hpos
      · rw [hd2] at hdl
        cases hdl
      · rw [hnet] at h2
        injection h2 with h2d
        rw [hd2] at hdl
        injection hdl with hfs
        have hid : writePdf fs (pdfPath cfg.out r) data = fs := by
          rw [h2d]
          exact writePdf_id h1
        rw [hid] at hfs
        rw [← hfs, h1] at hacc
        simp only [Option.getD_some] at hacc
        omega
  · rcases entryStep_cases env cfg fs r with
      ⟨cached, htx, hlen, he⟩ | ⟨hcp, hdl, he⟩ | ⟨fs1, hcp, hdl, hrej, he⟩ |
      ⟨fs1, hcp, hdl, hacc, he⟩
    · rw [he]
      refine ⟨rfl, ?_⟩
      intro u hu
      injection hu with hu
      rw [← hu]
      rfl
    · rw [he]
      exact ⟨rfl, fun u hu => by cases hu⟩
    · have hdl2 : download_pdf env fs r.download_url (pdfPath cfg.out r) =
          some fs := download_pdf_skip h1 h2
      rw [hdl2] at hdl
      injection hdl with hfs
      rw [he, ← hfs]
      exact ⟨rfl, fun u hu => by cases hu⟩
    · exfalso
      have hdl2 : download_pdf env fs r.download_url (pdfPath cfg.out r) =
          some fs := download_pdf_skip h1 h2
      rw [hdl2] at hdl
      injection hdl with hfs
      rw [← hfs, h1] at hacc
      simp only [Option.getD_some] at hacc
      omega

theorem GOOD_fold (env : Env) (cfg : Config) :
    ∀ (l : List Row) {fs : FS} {r : Row}, GOOD env cfg fs r →
    GOOD env cfg (runEntries env cfg fs l).1 r := by
  intro l
  induction l with
  | nil => intro fs r h; exact h
  | cons e t ih =>
    intro fs r h
    show GOOD env cfg (runEntries env cfg (entryStep env cfg fs e).1 t).1 r
    exact ih (GOOD_preserved env cfg e h)

/-- After one full pass over the window, the state is settled for every
window entry. -/
theorem GOOD_run (env : Env) (cfg : Config) :
    ∀ (rows : List Row) (fs : FS) (r : Row), r ∈ rows →
    GOOD env cfg (runEntries env cfg fs rows).1 r := by
  intro rows
  induction rows with
  | nil => intro fs r hr; cases hr
  | cons e t ih =>
    intro fs r hr
    rcases List.mem_cons.mp hr with rfl | hr2
    · show GOOD env cfg (runEntries env cfg (entryStep env cfg fs r).1 t).1 r
      exact GOOD_fold env cfg t (GOOD_established env cfg fs r)
    · show GOOD env cfg (runEntries env cfg (entryStep env cfg fs e).1 t).1 r
      exact ih (entryStep env cfg fs e).1 r hr2

/-- A pass over a window every entry of which is settled writes nothing,
and every record it produces has `method = "cached"`. -/
theorem runEntries_stable (env : Env) (cfg : Config) :
    ∀ (rows : List Row) (fs : FS), (∀ r ∈ rows, GOOD env cfg fs r) →
    (runEntries env cfg fs rows).1 = fs ∧
    ∀ u ∈ (runEntries env cfg fs rows).2, u.method = "cached" := by
  intro rows
  induction rows with
  | nil =>
    intro fs h
    exact ⟨rfl, fun u hu => by cases hu⟩
  | cons e t ih =>
    intro fs h
    obtain ⟨hfs, hrec⟩ := stable_of_GOOD env cfg (h e (List.mem_cons_self e t))
    have hq := ih fs fun r hr => h r (List.mem_cons_of_mem e hr)
    constructor
    · show (runEntries env cfg (entryStep env cfg fs e).1 t).1 = fs
      rw [hfs]
      exact hq.1
    · intro u hu
      have hru : (runEntries env cfg fs (e :: t)).2 =
          (match (entryStep env cfg fs e).2 with
           | some w => w :: (runEntries env cfg (entryStep env cfg fs e).1 t).2
           | none => (runEntries env cfg (entryStep env cfg fs e).1 t).2) := rfl
      rw [hru, hfs] at hu
      cases ho : (entryStep env cfg fs e).2 with
      | some w =>
        rw [ho] at hu
        rcases List.mem_cons.mp hu with rfl | hu2
        · exact hrec u ho
        · exact hq.2 u hu2
      | none =>
        rw [ho] at hu
        exact hq.2 u hu

theorem process_csv_shape (env : Env) (cfg : Config) (catalog : List Row)
    (fs : FS) (L : List Rec) :
    process_csv env cfg catalog fs L =
      ((runEntries env cfg fs (selectRows cfg catalog)).1,
       mergeLedger L (runEntries env cfg fs (selectRows cfg catalog)).2) := rfl

/-- C1 (amended): with the catalog and all external sources unchanged
(fixed `env`), every record the second run produces resolves via the
cache probe (`method = "cached"`), and from the second run on the
persisted ledger is byte-identical: the third run's ledger equals the
second run's.  (The second run's ledger may differ from the first's in
the `method` column, which is what defeats the claim as stated -- see the
counterexample.) -/
theorem run_idempotent_from_second (env : Env) (cfg : Config)
    (catalog : List Row) (fs0 : FS) (L0 : List Rec) :
    (∀ u ∈ (runEntries env cfg (process_csv env cfg catalog fs0 L0).1
        (selectRows cfg catalog)).2, u.method = "cached") ∧
    (process_csv env cfg catalog
        (process_csv env cfg catalog
          (process_csv env cfg catalog fs0 L0).1
          (process_csv env cfg catalog fs0 L0).2).1
        (process_csv env cfg catalog
          (process_csv env cfg catalog fs0 L0).1
          (process_csv env cfg catalog fs0 L0).2).2).2 =
      (process_csv env cfg catalog
        (process_csv env cfg catalog fs0 L0).1
        (process_csv env cfg catalog fs0 L0).2).2 := by
  obtain ⟨hfs2, hcached⟩ := runEntries_stable env cfg (selectRows cfg catalog)
    (runEntries env cfg fs0 (selectRows cfg catalog)).1
    (GOOD_run env cfg (selectRows cfg catalog) fs0)
  constructor
  · exact hcached
  · show mergeLedger
        (mergeLedger
          (mergeLedger L0 (runEntries env cfg fs0 (selectRows cfg catalog)).2)
          (runEntries env cfg (runEntries env cfg fs0 (selectRows cfg catalog)).1
            (selectRows cfg catalog)).2)
        (runEntries env cfg
          (runEntries env cfg (runEntries env cfg fs0 (selectRows cfg catalog)).1
            (selectRows cfg catalog)).1
          (selectRows cfg catalog)).2 =
      mergeLedger
        (mergeLedger L0 (runEntries env cfg fs0 (selectRows cfg catalog)).2)
        (runEntries env cfg (runEntries env cfg fs0 (selectRows cfg catalog)).1
          (selectRows cfg catalog)).2
    rw [hfs2]
    exact mergeLedger_idem _ _

/-- C1 counterexample: one fresh catalog entry accepted through
extraction.  The first run's ledger row has `method = "pdf"`; the second
run resolves the entry via the cache probe and overwrites the row with
`method = "cached"`, so the persisted ledger after the second run is not
byte-identical to the first run's. -/
theorem run_twice_ledger_cex :
    (process_csv cexEnv cexCfg [row1] emptyFS []).2 =
      [mkRec row1 "exams/texts_o/2021_A.txt" "pdf" 1] ∧
    (process_csv cexEnv cexCfg [row1]
        (process_csv cexEnv cexCfg [row1] emptyFS []).1
        (process_csv cexEnv cexCfg [row1] emptyFS []).2).2 =
      [mkRec row1 "exams/texts_o/2021_A.txt" "cached" 1] ∧
    (process_csv cexEnv cexCfg [row1]
        (process_csv cexEnv cexCfg [row1] emptyFS []).1
        (process_csv cexEnv cexCfg [row1] emptyFS []).2).2 ≠
      (process_csv cexEnv cexCfg [row1] emptyFS []).2 := by
  refine ⟨?_, ?_, ?_⟩ <;> decide

theorem run_idempotent_from_second_witness :
    (mkRec row1 "exams/texts_o/2021_A.txt" "cached" 1).method = "cached" ∧
    (process_csv cexEnv cexCfg [row1]
        (process_csv cexEnv cexCfg [row1]
          (process_csv cexEnv cexCfg [row1] emptyFS []).1
          (process_csv cexEnv cexCfg [row1] emptyFS []).2).1
        (process_csv cexEnv cexCfg [row1]
          (process_csv cexEnv cexCfg [row1] emptyFS []).1
          (process_csv cexEnv cexCfg [row1] emptyFS []).2).2).2 =
      (process_csv cexEnv cexCfg [row1]
        (process_csv cexEnv cexCfg [row1] emptyFS []).1
        (process_csv cexEnv cexCfg [row1] emptyFS []).2).2 :=
  ⟨(run_idempotent_from_second cexEnv cexCfg [row1] emptyFS []).1
      (mkRec row1 "exams/texts_o/2021_A.txt" "cached" 1) (by decide),
   (run_idempotent_from_second cexEnv cexCfg [row1] emptyFS []).2⟩

end ExamPipeline
